import Mathlib

/-!
# Verification of the templated sorting algorithms (`src/main.cpp`)

This file gives a shallow embedding of the three templated sorting routines
(`bubble_sort`, `shuttle_sort`, `quick_sort`), of the comparison interface the
C++ templates actually draw on, and of the file-handling glue
(`dump_vector`, `test_sorting_algorithms`, `test_class_sort`), and proves the
specification's claims about them.

Vectors become `List α`.  The comparison operators an element type supplies
become explicit `Bool`-valued functions: `bubble_sort` and `shuttle_sort` read
only `operator<` (`*e2 < *e1`), while `quick_sort` reads only `operator>`
(`*e1 > *pivot_it`), so the former take an `lt` argument and the latter a `gt`
argument.  The per-run statistics (`comparisons_total`, `swaps_total`, and the
`pass` counter for the shuttle sort) are returned alongside the list.
`cout` debug printing does not affect the data and is not modelled, except for
the file-open diagnostics, which claim C9 is about.
-/

open List (Perm Sorted Chain')

open scoped List

/-! ## Bubble sort (`bubble_sort`, main.cpp lines 60-128)

One pass of the inner `while (e2 < end)` loop sweeps the first `m` elements,
where `m` is the distance from `v.begin()` to the moving `end` iterator.
`bpassGo lt a l` carries the element currently under `e1` (`a`) through the
rest of the scanned range `l`; a swap happens exactly when `*e2 < *e1`.
It returns the reordered range together with the pass's `comparisons` and
`swaps` counters. -/
def bpassGo (lt : α → α → Bool) (a : α) : List α → List α × Nat × Nat
  | [] => ([a], 0, 0)
  | b :: rest =>
    if lt b a then
      let r := bpassGo lt a rest
      (b :: r.1, r.2.1 + 1, r.2.2 + 1)
    else
      let r := bpassGo lt b rest
      (a :: r.1, r.2.1 + 1, r.2.2)

/-- One bubble-sort pass over a whole range (the inner loop of `bubble_sort`). -/
def bpass (lt : α → α → Bool) : List α → List α × Nat × Nat
  | [] => ([], 0, 0)
  | a :: l => bpassGo lt a l

/-- One bubble-sort pass over the first `m` elements of `v` (the range
`[v.begin(), end)`); the elements at and beyond `end` are not touched. -/
def bubblePassOn (lt : α → α → Bool) (m : Nat) (v : List α) : List α × Nat × Nat :=
  let r := bpass lt (v.take m)
  (r.1 ++ v.drop m, r.2.1, r.2.2)

/-- The outer `while (1)` loop of `bubble_sort`.  `m` is the current size of the
scanned range.  After a pass the running totals are extended; if the pass made
no swap the loop breaks, otherwise `end--` shrinks the range by one.  (When
`m = 0` the pass compares nothing, so `swaps = 0` and the loop breaks at once.)
Returns the final list, `comparisons_total` and `swaps_total`. -/
def bubbleGo (lt : α → α → Bool) : Nat → List α → List α × Nat × Nat
  | 0, v => bubblePassOn lt 0 v
  | m' + 1, v =>
    let r := bubblePassOn lt (m' + 1) v
    if r.2.2 = 0 then r
    else
      let r2 := bubbleGo lt m' r.1
      (r2.1, r.2.1 + r2.2.1, r.2.2 + r2.2.2)

/-- `bubble_sort` (main.cpp lines 60-128): the scanned range starts as the whole
vector. -/
def bubble_sort (lt : α → α → Bool) (v : List α) : List α × Nat × Nat :=
  bubbleGo lt v.length v

/-! ## Shuttle sort (`shuttle_sort`, main.cpp lines 149-222)

The inner loop starts with `e1 = v.begin() + start_index`, `e2 = e1 + 1` and,
as long as `*e2 < *e1`, swaps and steps both iterators down, stopping when a
comparison fails or `e1` hits `v.begin()`.  `sift lt x rp` runs it with `x` the
element being shuttled down and `rp` the elements to its left in reverse order
(nearest first); it returns the rearranged segment, again in reverse order,
with the pass's `comparisons` and `swaps`. -/
def sift (lt : α → α → Bool) (x : α) : List α → List α × Nat × Nat
  | [] => ([x], 0, 0)
  | a :: rp =>
    if lt x a then
      let r := sift lt x rp
      (a :: r.1, r.2.1 + 1, r.2.2 + 1)
    else
      (x :: a :: rp, 1, 0)

/-- One shuttle-sort pass with `start_index = k`: shuttles the element at
index `k + 1` down through the prefix of the first `k + 1` elements.  If
`e2 = v.begin() + k + 1` already equals `v.end()` the inner loop never runs. -/
def shuttlePass (lt : α → α → Bool) (v : List α) (k : Nat) : List α × Nat × Nat :=
  match v.drop (k + 1) with
  | [] => (v, 0, 0)
  | x :: rest =>
    let r := sift lt x ((v.take (k + 1)).reverse)
    (r.1.reverse ++ rest, r.2.1, r.2.2)

/-- The outer `while (pass <= n - 1)` loop of `shuttle_sort`: `fuel` is the
number of passes still to run, `k` the current `start_index`.  Each iteration
runs one pass, accumulates the totals, advances `start_index` and `pass`.
Returns the final list, `comparisons_total`, `swaps_total`, and the number of
passes executed. -/
def shuttleGo (lt : α → α → Bool) : List α → Nat → Nat → List α × Nat × Nat × Nat
  | v, _, 0 => (v, 0, 0, 0)
  | v, k, fuel + 1 =>
    let r := shuttlePass lt v k
    let r2 := shuttleGo lt r.1 (k + 1) fuel
    (r2.1, r.2.1 + r2.2.1, r.2.2 + r2.2.2.1, r2.2.2.2 + 1)

/-- `shuttle_sort` (main.cpp lines 149-222): with `n = v.size()`, the loop
`while (pass <= n - 1)` starting at `pass = 1` runs `n - 1` iterations
(none when `n ≤ 1`, since `n` is a C++ `int`), with `start_index` starting
at `0`. -/
def shuttle_sort (lt : α → α → Bool) (v : List α) : List α × Nat × Nat × Nat :=
  shuttleGo lt v 0 (v.length - 1)

/-! ## Quick sort (`quick_sort`, main.cpp lines 245-300)

`quick_sort(v, start, end)` works on the inclusive iterator range
`[start, end]`, embedded here as the list `seg` of that range's elements; the
pivot is `*end`, the last element of `seg`. -/

/-- Moves the last element of a list to its front.  In the partition loop's
relocation branch, the element `*e2` just left of the pivot is swapped into the
scanning slot `*e1` and must be examined next (the scanning position is not
advanced); the still-unscanned middle therefore turns from `x :: rest` into
`rotateLast rest`. -/
def rotateLast (l : List α) : List α :=
  match l.reverse with
  | [] => []
  | a :: as => a :: as.reverse

theorem rotateLast_length (l : List α) : (rotateLast l).length = l.length := by
  rw [rotateLast]
  cases h : l.reverse with
  | nil =>
    have : l = [] := by simpa using congrArg List.reverse h
    simp [this]
  | cons a as =>
    have : l = as.reverse ++ [a] := by
      have := congrArg List.reverse h
      simpa using this
    simp [this]

theorem rotateLast_perm (l : List α) : rotateLast l ~ l := by
  rw [rotateLast]
  cases h : l.reverse with
  | nil =>
    have : l = [] := by simpa using congrArg List.reverse h
    simp [this]
  | cons a as =>
    have hl : l = as.reverse ++ [a] := by
      have := congrArg List.reverse h
      simpa using this
    rw [hl]
    exact List.perm_append_singleton a as.reverse |>.symm

/-- The partition loop `while (e1 != pivot_it)` of `quick_sort`.  `p` is the
pivot value and the argument list is the unscanned middle between `e1` and
`pivot_it`.  Returns the elements that end up left of the pivot (in order) and
those that end up right of it (in order).  When `*e1 > *p` the three-way
rotation sends `*e1` to the old pivot slot — immediately right of the pivot's
new position, hence in front of the previously relocated elements, i.e. the
earliest relocated element ends up rightmost — and brings the element that was
left of the pivot into the scanning slot (`rotateLast`).  Otherwise `e1++`
keeps the element on the left side. -/
def qpart (gt : α → α → Bool) (p : α) : List α → List α × List α
  | [] => ([], [])
  | x :: rest =>
    if gt x p then
      let pr := qpart gt p (rotateLast rest)
      (pr.1, pr.2 ++ [x])
    else
      let pr := qpart gt p rest
      (x :: pr.1, pr.2)
termination_by l => l.length
decreasing_by
  · simp only [rotateLast_length, List.length_cons]
    omega
  · simp only [List.length_cons]
    omega

/-- Length of the middle is split between the two sides of the partition. -/
theorem qpart_length (gt : α → α → Bool) (p : α) (l : List α) :
    (qpart gt p l).1.length + (qpart gt p l).2.length = l.length := by
  induction l using qpart.induct gt p with
  | case1 => simp [qpart]
  | case2 x rest h ih =>
    rw [qpart]
    simp only [if_pos h, List.length_append, List.length_cons, List.length_nil]
    rw [rotateLast_length] at ih
    omega
  | case3 x rest h ih =>
    rw [qpart]
    simp only [if_neg h, List.length_cons]
    omega

/-- `quick_sort` (main.cpp lines 245-300) on the inclusive range embedded as
the list `seg`.  If the range has fewer than two elements
(`end - start < 1`) it returns at once.  Otherwise it partitions the elements
left of the pivot (`seg.dropLast`) against the pivot (`seg`'s last element)
and recurses on the sub-range left of the pivot's final position
(`quick_sort(v, start, e2)`) and the one strictly right of it
(`quick_sort(v, pivot_it + 1, end)`). -/
def quick_sort (gt : α → α → Bool) : List α → List α
  | [] => []
  | [a] => [a]
  | x :: y :: rest =>
    let p := (x :: y :: rest).getLastD x
    let pr := qpart gt p ((x :: y :: rest).dropLast)
    quick_sort gt pr.1 ++ p :: quick_sort gt pr.2
termination_by l => l.length
decreasing_by
  · have h := qpart_length gt ((x :: y :: rest).getLastD x) ((x :: y :: rest).dropLast)
    simp only [List.length_dropLast, List.length_cons] at h ⊢
    omega
  · have h := qpart_length gt ((x :: y :: rest).getLastD x) ((x :: y :: rest).dropLast)
    simp only [List.length_dropLast, List.length_cons] at h ⊢
    omega

/-! ## The comparison interface

A C++ element type may overload `operator<` and `operator>` independently;
`CmpOps` records the pair of overloads a type supplies.  The templates
instantiate `bubble_sort`/`shuttle_sort` against `operator<` only and
`quick_sort` against `operator>` only. -/
structure CmpOps (α : Type) where
  lt : α → α → Bool
  gt : α → α → Bool

/-- `bubble_sort` as instantiated for an element type with operators `c`. -/
def bubble_sortC (c : CmpOps α) (v : List α) : List α × Nat × Nat :=
  bubble_sort c.lt v

/-- `shuttle_sort` as instantiated for an element type with operators `c`. -/
def shuttle_sortC (c : CmpOps α) (v : List α) : List α × Nat × Nat × Nat :=
  shuttle_sort c.lt v

/-- `quick_sort` as instantiated for an element type with operators `c`. -/
def quick_sortC (c : CmpOps α) (v : List α) : List α :=
  quick_sort c.gt v

/-- The strict less-than of a linearly ordered element type (e.g. `float`). -/
def ltb [LinearOrder α] : α → α → Bool := fun a b => decide (a < b)

/-- The strict greater-than of a linearly ordered element type:
`a > b` is `b < a`. -/
def gtb [LinearOrder α] : α → α → Bool := fun a b => decide (b < a)

/-! ## The `Cat` record type and the file-handling glue -/

/-- The demonstration record type `Cat` (main.cpp lines 434-444): a single
integer `m_weight` field. -/
structure Cat where
  m_weight : Int

/-- `operator<(Cat&, Cat&)` (main.cpp lines 446-450):
`return (cat2.m_weight > cat1.m_weight)`. -/
def catLt (cat1 cat2 : Cat) : Bool := decide (cat2.m_weight > cat1.m_weight)

/-- The diagnostic printed on every failed `is_open()` check. -/
def openErrorMsg : String := "Error! Could not open file"

/-- `dump_vector` (main.cpp lines 335-354).  `isOpen` models whether
`out.open(output_file, ios::out)` succeeds.  Returns the lines printed to
`cout` and the file content written (one formatted element per line), `none`
when nothing was written.  On open failure it prints the diagnostic and
returns early. -/
def dump_vector (fmt : α → String) (v : List α) (isOpen : Bool) :
    List String × Option (List String) :=
  if !isOpen then ([openErrorMsg], none)
  else ([], some (v.map fmt))

/-- `test_sorting_algorithms` (main.cpp lines 356-415).  `tokens` is the list
of values the `while (data >> number)` loop would extract from the input file,
`inOpen` whether the input file opens, `o1 o2 o3` whether the three output
files open.  Returns the diagnostic lines printed to `cout` (progress and
timing prints are not modelled) and the contents of `out1.dat`, `out2.dat`,
`out3.dat`.  On input-open failure it prints the diagnostic and returns before
reading, sorting or writing anything. -/
def test_sorting_algorithms [LinearOrder α] (fmt : α → String) (tokens : List α)
    (inOpen o1 o2 o3 : Bool) :
    List String × Option (List String) × Option (List String) × Option (List String) :=
  if !inOpen then ([openErrorMsg], none, none, none)
  else
    let v1 := (bubble_sort ltb tokens).1
    let v2 := (shuttle_sort ltb tokens).1
    let v3 := quick_sort gtb tokens
    let d1 := dump_vector fmt v1 o1
    let d2 := dump_vector fmt v2 o2
    let d3 := dump_vector fmt v3 o3
    (d1.1 ++ d2.1 ++ d3.1, d1.2, d2.2, d3.2)

/-- `test_class_sort` (main.cpp lines 462-490).  `tokens` is the list of `Cat`
values extracted from `cats.dat`, `isOpen` whether that file opens.  Returns
the diagnostic lines printed to `cout` and the bubble-sorted vector.  On open
failure it prints the diagnostic and returns before reading or sorting. -/
def test_class_sort (tokens : List Cat) (isOpen : Bool) : List String × List Cat :=
  if !isOpen then ([openErrorMsg], [])
  else ([], (bubble_sort catLt tokens).1)

/-! ## Bubble sort lemmas -/

theorem bpassGo_perm (lt : α → α → Bool) (a : α) (l : List α) :
    (bpassGo lt a l).1 ~ a :: l := by
  induction l generalizing a with
  | nil => simp [bpassGo]
  | cons b rest ih =>
    rw [bpassGo]
    by_cases h : lt b a
    · simp only [h, if_true]
      exact (((ih a).cons b).trans (List.Perm.swap a b rest))
    · simp only [h, if_false]
      exact (ih b).cons a

theorem bpass_perm (lt : α → α → Bool) (v : List α) : (bpass lt v).1 ~ v := by
  cases v with
  | nil => simp [bpass]
  | cons a l => exact bpassGo_perm lt a l

theorem bubblePassOn_eq (lt : α → α → Bool) (m : Nat) (v : List α) (a : α) (l : List α)
    (htk : v.take m = a :: l) :
    bubblePassOn lt m v =
      ((bpassGo lt a l).1 ++ v.drop m, (bpassGo lt a l).2.1, (bpassGo lt a l).2.2) := by
  simp [bubblePassOn, htk, bpass]

theorem bubblePassOn_perm (lt : α → α → Bool) (m : Nat) (v : List α) :
    (bubblePassOn lt m v).1 ~ v := by
  have h1 : (bpass lt (v.take m)).1 ++ v.drop m ~ v.take m ++ v.drop m :=
    (bpass_perm lt (v.take m)).append_right _
  rw [List.take_append_drop] at h1
  simpa [bubblePassOn] using h1

theorem bubbleGo_perm (lt : α → α → Bool) (m : Nat) (v : List α) :
    (bubbleGo lt m v).1 ~ v := by
  induction m generalizing v with
  | zero => exact bubblePassOn_perm lt 0 v
  | succ m' ih =>
    rw [bubbleGo]
    by_cases h : (bubblePassOn lt (m' + 1) v).2.2 = 0
    · simp only [h, if_true]
      exact bubblePassOn_perm lt (m' + 1) v
    · simp only [h, if_false]
      exact (ih _).trans (bubblePassOn_perm lt (m' + 1) v)

theorem bpassGo_swaps_zero (lt : α → α → Bool) (a : α) (l : List α)
    (h : (bpassGo lt a l).2.2 = 0) :
    (bpassGo lt a l).1 = a :: l ∧ Chain' (fun x y => lt y x = false) (a :: l) := by
  induction l generalizing a with
  | nil => exact ⟨rfl, List.chain'_singleton a⟩
  | cons b rest ih =>
    rw [bpassGo] at h ⊢
    cases hba : lt b a with
    | true =>
      simp only [hba, if_true] at h
      omega
    | false =>
      simp only [hba, Bool.false_eq_true, if_false] at h ⊢
      obtain ⟨h1, h2⟩ := ih b h
      refine ⟨by rw [h1], ?_⟩
      rw [List.chain'_cons]
      exact ⟨hba, h2⟩

theorem bpassGo_max [LinearOrder α] (a : α) (l : List α) :
    ∃ l' M, (bpassGo ltb a l).1 = l' ++ [M] ∧ l'.length = l.length ∧
      ∀ x ∈ a :: l, x ≤ M := by
  induction l generalizing a with
  | nil => exact ⟨[], a, rfl, rfl, by simp⟩
  | cons b rest ih =>
    rw [bpassGo]
    by_cases h : ltb b a
    · have hba : b < a := by simpa [ltb] using h
      simp only [h, if_true]
      obtain ⟨l', M, h1, h2, h3⟩ := ih a
      refine ⟨b :: l', M, by simp [h1], by simp [h2], ?_⟩
      intro x hx
      rcases List.mem_cons.mp hx with rfl | hx
      · exact h3 x (List.mem_cons_self x rest)
      · rcases List.mem_cons.mp hx with rfl | hx
        · exact le_of_lt (lt_of_lt_of_le hba (h3 a (List.mem_cons_self a rest)))
        · exact h3 x (List.mem_cons_of_mem a hx)
    · have hab : a ≤ b := by simpa [ltb] using h
      simp only [h, if_false]
      obtain ⟨l', M, h1, h2, h3⟩ := ih b
      refine ⟨a :: l', M, by simp [h1], by simp [h2], ?_⟩
      intro x hx
      rcases List.mem_cons.mp hx with rfl | hx
      · exact le_trans hab (h3 b (List.mem_cons_self b rest))
      · exact h3 x hx

theorem chain_swapfree_sorted [LinearOrder α] (l : List α)
    (h : Chain' (fun x y => ltb y x = false) l) : l.Sorted (· ≤ ·) := by
  have h' : Chain' (· ≤ ·) l := by
    refine h.imp ?_
    intro x y hxy
    have : ¬ (y < x) := by simpa [ltb] using hxy
    exact le_of_not_lt this
  exact List.chain'_iff_pairwise.mp h'

theorem bubbleGo_sorted [LinearOrder α] (m : Nat) (v : List α) (hm : m ≤ v.length)
    (hcross : ∀ x ∈ v.take m, ∀ y ∈ v.drop m, x ≤ y)
    (hsorted : (v.drop m).Sorted (· ≤ ·)) :
    ((bubbleGo ltb m v).1).Sorted (· ≤ ·) := by
  induction m generalizing v with
  | zero =>
    have h0 : (bubbleGo ltb 0 v).1 = v := by simp [bubbleGo, bubblePassOn, bpass]
    rw [h0]
    simpa using hsorted
  | succ m' ih =>
    have hlen : (v.take (m' + 1)).length = m' + 1 := by
      rw [List.length_take, Nat.min_eq_left hm]
    cases htk : v.take (m' + 1) with
    | nil => rw [htk] at hlen; simp at hlen
    | cons a l =>
      have hleq : l.length = m' := by rw [htk] at hlen; simpa using hlen
      rw [bubbleGo, bubblePassOn_eq ltb (m' + 1) v a l htk]
      by_cases hs : (bpassGo ltb a l).2.2 = 0
      · simp only [hs, if_pos]
        obtain ⟨h1, h2⟩ := bpassGo_swaps_zero ltb a l hs
        have hsort1 : (a :: l).Sorted (· ≤ ·) := chain_swapfree_sorted (a :: l) h2
        simp only [h1]
        refine List.pairwise_append.mpr ⟨hsort1, hsorted, ?_⟩
        intro x hx y hy
        exact hcross x (by rw [htk]; exact hx) y hy
      · simp only [hs, if_neg, if_false]
        obtain ⟨l', M, hM1, hM2, hM3⟩ := bpassGo_max a l
        have hperm : l' ++ [M] ~ a :: l := by rw [← hM1]; exact bpassGo_perm ltb a l
        have hv' : (bpassGo ltb a l).1 ++ v.drop (m' + 1) = l' ++ ([M] ++ v.drop (m' + 1)) := by
          rw [hM1, List.append_assoc]
        have hl'len : l'.length = m' := hM2.trans hleq
        have hMmem : M ∈ a :: l := (hperm.mem_iff).mp (by simp)
        have hMtake : M ∈ v.take (m' + 1) := by rw [htk]; exact hMmem
        refine ih ((bpassGo ltb a l).1 ++ v.drop (m' + 1)) ?_ ?_ ?_
        · rw [hv']
          simp [hl'len]
        · intro x hx y hy
          rw [hv', List.take_left' hl'len] at hx
          rw [hv', List.drop_left' hl'len] at hy
          have hxal : x ∈ a :: l := (hperm.mem_iff).mp (by simp [hx])
          have hxtake : x ∈ v.take (m' + 1) := by rw [htk]; exact hxal
          rcases List.mem_cons.mp hy with rfl | hy
          · exact hM3 x hxal
          · exact hcross x hxtake y hy
        · rw [hv', List.drop_left' hl'len]
          rw [List.singleton_append, List.sorted_cons]
          exact ⟨fun y hy => hcross M hMtake y hy, hsorted⟩

theorem bubble_sort_sorted [LinearOrder α] (v : List α) :
    ((bubble_sort ltb v).1).Sorted (· ≤ ·) := by
  refine bubbleGo_sorted v.length v (le_refl _) ?_ ?_
  · intro x _ y hy
    simp at hy
  · simp

/-! ## Bubble sort statistics on strictly decreasing input -/

theorem chain_gt_skip [LinearOrder α] (a b : α) (rest : List α)
    (h : Chain' (· > ·) (a :: b :: rest)) : Chain' (· > ·) (a :: rest) := by
  rw [List.chain'_cons] at h
  obtain ⟨hab, h2⟩ := h
  cases rest with
  | nil => exact List.chain'_singleton a
  | cons c rest' =>
    rw [List.chain'_cons] at h2 ⊢
    exact ⟨lt_trans h2.1 hab, h2.2⟩

theorem bpassGo_desc [LinearOrder α] (a : α) (l : List α)
    (h : Chain' (· > ·) (a :: l)) :
    bpassGo ltb a l = (l ++ [a], l.length, l.length) := by
  induction l generalizing a with
  | nil => rfl
  | cons b rest ih =>
    have hab : a > b := (List.chain'_cons.mp h).1
    have hba : ltb b a = true := by simp [ltb, hab]
    rw [bpassGo]
    simp only [hba, if_true]
    rw [ih a (chain_gt_skip a b rest h)]
    simp

theorem triangle_step (k : Nat) : (k + 1) + (k + 1) * k / 2 = (k + 2) * (k + 1) / 2 := by
  have h : (k + 2) * (k + 1) = (k + 1) * k + (k + 1) * 2 := by ring
  rw [h, Nat.add_mul_div_right _ _ (by omega : 0 < 2)]
  omega

theorem bubbleGo_desc_swaps [LinearOrder α] (m : Nat) (v : List α) (hm : m ≤ v.length)
    (h : Chain' (· > ·) (v.take m)) :
    (bubbleGo ltb m v).2.2 = m * (m - 1) / 2 := by
  induction m generalizing v with
  | zero => simp [bubbleGo, bubblePassOn, bpass]
  | succ m' ih =>
    have hlen : (v.take (m' + 1)).length = m' + 1 := by
      rw [List.length_take, Nat.min_eq_left hm]
    cases htk : v.take (m' + 1) with
    | nil => rw [htk] at hlen; simp at hlen
    | cons a l =>
      have hleq : l.length = m' := by rw [htk] at hlen; simpa using hlen
      rw [htk] at h
      rw [bubbleGo, bubblePassOn_eq ltb (m' + 1) v a l htk, bpassGo_desc a l h]
      by_cases hz : m' = 0
      · subst hz
        have hl : l = [] := List.length_eq_zero.mp hleq
        subst hl
        simp
      · rw [if_neg (by simp only [hleq]; exact hz)]
        have hlen2 : ((l ++ [a]) ++ v.drop (m' + 1)).length = v.length := by
          simp [hleq]
          omega
        have htk2 : ((l ++ [a]) ++ v.drop (m' + 1)).take m' = l := by
          rw [List.append_assoc]
          exact List.take_left' hleq
        have ihres := ih ((l ++ [a]) ++ v.drop (m' + 1))
          (by rw [hlen2]; omega) (by rw [htk2]; exact h.tail)
        simp only [ihres, hleq]
        obtain ⟨k, rfl⟩ := Nat.exists_eq_succ_of_ne_zero hz
        simpa using triangle_step k

theorem bubbleGo_stop (lt : α → α → Bool) (m : Nat) (v : List α)
    (h : (bubblePassOn lt m v).2.2 = 0) : bubbleGo lt m v = bubblePassOn lt m v := by
  cases m with
  | zero => rfl
  | succ m' =>
    rw [bubbleGo]
    simp only [h, if_true]

/-! ## Shuttle sort lemmas -/

theorem sift_perm (lt : α → α → Bool) (x : α) (rp : List α) :
    (sift lt x rp).1 ~ x :: rp := by
  induction rp with
  | nil => simp [sift]
  | cons a rp ih =>
    rw [sift]
    cases h : lt x a with
    | true =>
      simp only [h, if_true]
      exact (ih.cons a).trans (List.Perm.swap x a rp)
    | false =>
      simp only [h, Bool.false_eq_true, if_false]
      exact List.Perm.refl _

theorem sift_desc [LinearOrder α] (x : α) (rp : List α) (h : rp.Sorted (· ≥ ·)) :
    ((sift ltb x rp).1).Sorted (· ≥ ·) := by
  induction rp with
  | nil => exact List.sorted_singleton x
  | cons a rp ih =>
    rw [sift]
    by_cases hxa : ltb x a
    · have hx : x < a := by simpa [ltb] using hxa
      simp only [hxa, if_true]
      rw [List.sorted_cons]
      refine ⟨?_, ih (List.sorted_cons.mp h).2⟩
      intro b hb
      have hb' : b ∈ x :: rp := (sift_perm ltb x rp).mem_iff.mp hb
      rcases List.mem_cons.mp hb' with rfl | hb'
      · exact le_of_lt hx
      · exact (List.sorted_cons.mp h).1 b hb'
    · have hax : a ≤ x := by simpa [ltb] using hxa
      have hfalse : ltb x a = false := by simpa [ltb] using hxa
      simp only [hfalse, Bool.false_eq_true, if_false]
      show ((x :: a :: rp : List α)).Sorted (· ≥ ·)
      rw [List.sorted_cons]
      refine ⟨?_, h⟩
      intro b hb
      rcases List.mem_cons.mp hb with rfl | hb
      · exact hax
      · exact le_trans ((List.sorted_cons.mp h).1 b hb) hax

theorem shuttlePass_perm (lt : α → α → Bool) (v : List α) (k : Nat) :
    (shuttlePass lt v k).1 ~ v := by
  rw [shuttlePass]
  cases hd : v.drop (k + 1) with
  | nil => exact List.Perm.refl v
  | cons x rest =>
    have hv : v.take (k + 1) ++ x :: rest = v := by rw [← hd, List.take_append_drop]
    have h1 : ((sift lt x ((v.take (k + 1)).reverse)).1).reverse ~ x :: (v.take (k + 1)).reverse :=
      (List.reverse_perm _).trans (sift_perm lt x _)
    have h2 : ((sift lt x ((v.take (k + 1)).reverse)).1).reverse ++ rest ~
        (x :: (v.take (k + 1)).reverse) ++ rest := h1.append_right rest
    refine h2.trans ?_
    have h3 : (x :: (v.take (k + 1)).reverse) ++ rest ~ (x :: v.take (k + 1)) ++ rest :=
      (((List.reverse_perm _).cons x).append_right rest)
    refine h3.trans ?_
    have h4 : (x :: v.take (k + 1)) ++ rest ~ v.take (k + 1) ++ x :: rest := by
      exact (List.perm_middle).symm
    rw [hv] at h4
    exact h4

theorem shuttlePass_sorted [LinearOrder α] (v : List α) (k : Nat) (hk : k + 1 < v.length)
    (hs : (v.take (k + 1)).Sorted (· ≤ ·)) :
    (((shuttlePass ltb v k).1).take (k + 2)).Sorted (· ≤ ·) := by
  rw [shuttlePass]
  cases hd : v.drop (k + 1) with
  | nil =>
    have : v.length - (k + 1) = 0 := by
      have := congrArg List.length hd
      simpa using this
    omega
  | cons x rest =>
    have hrp : ((v.take (k + 1)).reverse).Sorted (· ≥ ·) := by
      rw [List.Sorted, List.pairwise_reverse]
      exact hs
    have hsift := sift_desc x ((v.take (k + 1)).reverse) hrp
    have hlen : ((sift ltb x ((v.take (k + 1)).reverse)).1).reverse.length = k + 2 := by
      have h1 := (sift_perm ltb x ((v.take (k + 1)).reverse)).length_eq
      have h2 : (v.take (k + 1)).length = k + 1 := by
        rw [List.length_take, Nat.min_eq_left (by omega)]
      simp [h1, h2]
    simp only []
    rw [List.take_left' hlen]
    rw [List.Sorted, List.pairwise_reverse]
    exact hsift

theorem shuttleGo_perm (lt : α → α → Bool) (fuel k : Nat) (v : List α) :
    (shuttleGo lt v k fuel).1 ~ v := by
  induction fuel generalizing k v with
  | zero => exact List.Perm.refl v
  | succ fuel ih =>
    rw [shuttleGo]
    exact (ih (k + 1) _).trans (shuttlePass_perm lt v k)

theorem shuttleGo_sorted [LinearOrder α] (fuel k : Nat) (v : List α)
    (hlen : k + 1 + fuel = v.length) (hs : (v.take (k + 1)).Sorted (· ≤ ·)) :
    ((shuttleGo ltb v k fuel).1).Sorted (· ≤ ·) := by
  induction fuel generalizing k v with
  | zero =>
    have hk : k + 1 = v.length := by omega
    have : v.take (k + 1) = v := by
      rw [hk]
      exact List.take_length v
    rw [shuttleGo, ← this]
    exact hs
  | succ fuel ih =>
    rw [shuttleGo]
    refine ih (k + 1) _ ?_ ?_
    · rw [(shuttlePass_perm ltb v k).length_eq]
      omega
    · exact shuttlePass_sorted v k (by omega) hs

theorem shuttleGo_passes (lt : α → α → Bool) (fuel k : Nat) (v : List α) :
    (shuttleGo lt v k fuel).2.2.2 = fuel := by
  induction fuel generalizing k v with
  | zero => rfl
  | succ fuel ih =>
    rw [shuttleGo]
    simp [ih]

theorem shuttle_sort_sorted [LinearOrder α] (v : List α) :
    ((shuttle_sort ltb v).1).Sorted (· ≤ ·) := by
  cases v with
  | nil => exact List.sorted_nil
  | cons a t =>
    rw [shuttle_sort]
    refine shuttleGo_sorted (a :: t).length.pred 0 (a :: t) (by simp; omega) ?_
    simp [List.sorted_singleton]

/-! ## Quick sort lemmas -/

theorem qpart_perm (gt : α → α → Bool) (p : α) (l : List α) :
    (qpart gt p l).1 ++ (qpart gt p l).2 ~ l := by
  induction l using qpart.induct gt p with
  | case1 => simp [qpart]
  | case2 x rest h ih =>
    rw [qpart]
    simp only [h, if_true]
    have h1 : (qpart gt p (rotateLast rest)).1 ++ ((qpart gt p (rotateLast rest)).2 ++ [x]) ~
        ((qpart gt p (rotateLast rest)).1 ++ (qpart gt p (rotateLast rest)).2) ++ [x] := by
      rw [List.append_assoc]
    refine h1.trans ?_
    refine (ih.append_right [x]).trans ?_
    refine ((rotateLast_perm rest).append_right [x]).trans ?_
    exact List.perm_append_singleton x rest
  | case3 x rest h ih =>
    rw [qpart]
    simp only [h, Bool.false_eq_true, if_false]
    show x :: ((qpart gt p rest).1 ++ (qpart gt p rest).2) ~ x :: rest
    exact ih.cons x

theorem qpart_left (gt : α → α → Bool) (p : α) (l : List α) :
    ∀ x ∈ (qpart gt p l).1, gt x p = false := by
  induction l using qpart.induct gt p with
  | case1 => simp [qpart]
  | case2 x rest h ih =>
    rw [qpart]
    simp only [h, if_true]
    exact ih
  | case3 x rest h ih =>
    rw [qpart]
    simp only [h, Bool.false_eq_true, if_false]
    intro y hy
    rcases List.mem_cons.mp hy with rfl | hy
    · exact Bool.not_eq_true _ |>.mp h
    · exact ih y hy

theorem qpart_right (gt : α → α → Bool) (p : α) (l : List α) :
    ∀ x ∈ (qpart gt p l).2, gt x p = true := by
  induction l using qpart.induct gt p with
  | case1 => simp [qpart]
  | case2 x rest h ih =>
    rw [qpart]
    simp only [h, if_true]
    intro y hy
    rcases List.mem_append.mp hy with hy | hy
    · exact ih y hy
    · rw [List.mem_singleton.mp hy]
      exact h
  | case3 x rest h ih =>
    rw [qpart]
    simp only [h, Bool.false_eq_true, if_false]
    exact ih

theorem dropLast_append_getLastD (x y : α) (rest : List α) :
    (x :: y :: rest).dropLast ++ [(x :: y :: rest).getLastD x] = x :: y :: rest := by
  induction rest generalizing x y with
  | nil => rfl
  | cons z rest ih =>
    have h := ih y z
    simp only [List.dropLast_cons₂, List.getLastD_cons, List.cons_append] at h ⊢
    exact congrArg (x :: ·) h

theorem quick_sort_cons₂ (gt : α → α → Bool) (x y : α) (rest : List α) :
    quick_sort gt (x :: y :: rest) =
      quick_sort gt (qpart gt ((x :: y :: rest).getLastD x) ((x :: y :: rest).dropLast)).1 ++
        ((x :: y :: rest).getLastD x) ::
          quick_sort gt (qpart gt ((x :: y :: rest).getLastD x) ((x :: y :: rest).dropLast)).2 := by
  rw [quick_sort]

theorem quick_sort_perm (gt : α → α → Bool) (l : List α) : quick_sort gt l ~ l := by
  induction l using quick_sort.induct gt with
  | case1 => simp [quick_sort]
  | case2 a => simp [quick_sort]
  | case3 x y rest p pr ih1 ih2 =>
    rw [quick_sort_cons₂]
    refine ((ih1.append (ih2.cons _))).trans ?_
    refine (List.perm_middle).trans ?_
    refine (((qpart_perm gt _ _).cons _)).trans ?_
    refine (List.perm_append_singleton _ _).symm.trans ?_
    rw [dropLast_append_getLastD]

theorem quick_sort_sorted_fuel [LinearOrder α] (n : Nat) :
    ∀ l : List α, l.length ≤ n → (quick_sort gtb l).Sorted (· ≤ ·) := by
  induction n with
  | zero =>
    intro l hl
    have : l = [] := List.length_eq_zero.mp (Nat.le_zero.mp hl)
    subst this
    simp [quick_sort]
  | succ n ih =>
    intro l hl
    match l with
    | [] => simp [quick_sort]
    | [a] => simp [quick_sort]
    | x :: y :: rest =>
      rw [quick_sort_cons₂]
      have hq := qpart_length gtb ((x :: y :: rest).getLastD x) ((x :: y :: rest).dropLast)
      simp only [List.length_dropLast, List.length_cons] at hq
      simp only [List.length_cons] at hl
      refine List.pairwise_append.mpr ⟨ih _ (by omega), ?_, ?_⟩
      · rw [List.pairwise_cons]
        refine ⟨?_, ih _ (by omega)⟩
        intro b hb
        have hb' := (quick_sort_perm gtb _).mem_iff.mp hb
        have := qpart_right gtb ((x :: y :: rest).getLastD x) ((x :: y :: rest).dropLast) b hb'
        have hlt : (x :: y :: rest).getLastD x < b := by simpa [gtb] using this
        exact le_of_lt hlt
      · intro a ha b hb
        have ha' := (quick_sort_perm gtb _).mem_iff.mp ha
        have hale := qpart_left gtb ((x :: y :: rest).getLastD x) ((x :: y :: rest).dropLast) a ha'
        have hap : a ≤ (x :: y :: rest).getLastD x := by
          have : ¬ ((x :: y :: rest).getLastD x < a) := by simpa [gtb] using hale
          exact le_of_not_lt this
        rcases List.mem_cons.mp hb with rfl | hb
        · exact hap
        · have hb' := (quick_sort_perm gtb _).mem_iff.mp hb
          have := qpart_right gtb ((x :: y :: rest).getLastD x) ((x :: y :: rest).dropLast) b hb'
          have hlt : (x :: y :: rest).getLastD x < b := by simpa [gtb] using this
          exact le_trans hap (le_of_lt hlt)

theorem quick_sort_sorted [LinearOrder α] (l : List α) :
    (quick_sort gtb l).Sorted (· ≤ ·) :=
  quick_sort_sorted_fuel l.length l (le_refl _)

/-! ## Stability

`bubble_sort` and `shuttle_sort` swap adjacent elements only when `*e2 < *e1`
holds.  For any predicate `pb` such that two elements satisfying `pb` are never
related by `lt` (e.g. "has key `k`" when `lt` compares keys), the subsequence
of `pb`-elements is untouched. -/

theorem filter_swap_of_not_both (pb : α → Bool) (a b : α) (l : List α)
    (h : ¬ (pb a = true ∧ pb b = true)) :
    List.filter pb (b :: a :: l) = List.filter pb (a :: b :: l) := by
  cases hA : pb a with
  | true =>
    cases hB : pb b with
    | true => exact absurd ⟨hA, hB⟩ h
    | false => simp [List.filter_cons, hA, hB]
  | false =>
    cases hB : pb b with
    | true => simp [List.filter_cons, hA, hB]
    | false => simp [List.filter_cons, hA, hB]

theorem bpassGo_filter (lt : α → α → Bool) (pb : α → Bool)
    (hp : ∀ a b, lt a b = true → pb a = true → pb b = true → False) (a : α) (l : List α) :
    ((bpassGo lt a l).1).filter pb = (a :: l).filter pb := by
  induction l generalizing a with
  | nil => rfl
  | cons b rest ih =>
    rw [bpassGo]
    cases hba : lt b a with
    | true =>
      simp only [if_true]
      have hnot : ¬ (pb a = true ∧ pb b = true) := fun hconj => hp b a hba hconj.2 hconj.1
      have step : (b :: (bpassGo lt a rest).1).filter pb = (b :: a :: rest).filter pb := by
        cases hpb : pb b with
        | true => simp [List.filter_cons, hpb, ih a]
        | false => simp [List.filter_cons, hpb, ih a]
      rw [step]
      exact filter_swap_of_not_both pb a b rest hnot
    | false =>
      simp only [Bool.false_eq_true, if_false]
      cases hpa : pb a with
      | true => simp [List.filter_cons, hpa, ih b]
      | false => simp [List.filter_cons, hpa, ih b]

theorem bpass_filter (lt : α → α → Bool) (pb : α → Bool)
    (hp : ∀ a b, lt a b = true → pb a = true → pb b = true → False) (v : List α) :
    ((bpass lt v).1).filter pb = v.filter pb := by
  cases v with
  | nil => rfl
  | cons a l => exact bpassGo_filter lt pb hp a l

theorem bubblePassOn_filter (lt : α → α → Bool) (pb : α → Bool)
    (hp : ∀ a b, lt a b = true → pb a = true → pb b = true → False) (m : Nat) (v : List α) :
    ((bubblePassOn lt m v).1).filter pb = v.filter pb := by
  show ((bpass lt (v.take m)).1 ++ v.drop m).filter pb = v.filter pb
  rw [List.filter_append, bpass_filter lt pb hp]
  conv_rhs => rw [← List.take_append_drop m v]
  rw [List.filter_append]

theorem bubbleGo_filter (lt : α → α → Bool) (pb : α → Bool)
    (hp : ∀ a b, lt a b = true → pb a = true → pb b = true → False) (m : Nat) (v : List α) :
    ((bubbleGo lt m v).1).filter pb = v.filter pb := by
  induction m generalizing v with
  | zero => exact bubblePassOn_filter lt pb hp 0 v
  | succ m' ih =>
    rw [bubbleGo]
    by_cases hs : (bubblePassOn lt (m' + 1) v).2.2 = 0
    · simp only [hs, if_true]
      exact bubblePassOn_filter lt pb hp (m' + 1) v
    · simp only [hs, if_false]
      rw [ih _]
      exact bubblePassOn_filter lt pb hp (m' + 1) v

theorem sift_filter (lt : α → α → Bool) (pb : α → Bool)
    (hp : ∀ a b, lt a b = true → pb a = true → pb b = true → False) (x : α) (rp : List α) :
    ((sift lt x rp).1).filter pb = (x :: rp).filter pb := by
  induction rp with
  | nil => rfl
  | cons a rp ih =>
    rw [sift]
    cases hxa : lt x a with
    | true =>
      simp only [if_true]
      have hnot : ¬ (pb x = true ∧ pb a = true) := fun hconj => hp x a hxa hconj.1 hconj.2
      have step : (a :: (sift lt x rp).1).filter pb = (a :: x :: rp).filter pb := by
        cases hpa : pb a with
        | true => simp [List.filter_cons, hpa, ih]
        | false => simp [List.filter_cons, hpa, ih]
      rw [step]
      exact filter_swap_of_not_both pb x a rp hnot
    | false =>
      simp only [Bool.false_eq_true, if_false]

theorem shuttlePass_filter (lt : α → α → Bool) (pb : α → Bool)
    (hp : ∀ a b, lt a b = true → pb a = true → pb b = true → False) (v : List α) (k : Nat) :
    ((shuttlePass lt v k).1).filter pb = v.filter pb := by
  rw [shuttlePass]
  cases hd : v.drop (k + 1) with
  | nil => rfl
  | cons x rest =>
    show ((sift lt x ((v.take (k + 1)).reverse)).1.reverse ++ rest).filter pb = v.filter pb
    rw [List.filter_append, List.filter_reverse, sift_filter lt pb hp, ← List.filter_reverse]
    rw [List.reverse_cons, List.reverse_reverse]
    conv_rhs => rw [← List.take_append_drop (k + 1) v, hd]
    rw [List.filter_append, List.filter_append, List.filter_cons]
    cases hx : pb x <;> simp [List.filter_cons, hx]

theorem shuttleGo_filter (lt : α → α → Bool) (pb : α → Bool)
    (hp : ∀ a b, lt a b = true → pb a = true → pb b = true → False)
    (fuel k : Nat) (v : List α) :
    ((shuttleGo lt v k fuel).1).filter pb = v.filter pb := by
  induction fuel generalizing k v with
  | zero => rfl
  | succ fuel ih =>
    rw [shuttleGo]
    rw [ih]
    exact shuttlePass_filter lt pb hp v k

/-- The strict less-than a key-tag pair type supplies: compare by key only
(the tag plays the role of the distinguishable secondary field from the
spec's stability scenario). -/
def ltkey [LinearOrder κ] : (κ × τ) → (κ × τ) → Bool := fun a b => decide (a.1 < b.1)

/-! ## The claims -/

/-- C1: For every finite sequence of comparable elements, each of the three
sorting routines — `bubble_sort`, `shuttle_sort`, and `quick_sort` invoked on
the full range — leaves the sequence a permutation of the input
(multiset-equal) that is non-decreasing under the element's strict less-than
ordering. -/
theorem C1_sorts_perm_and_sorted [LinearOrder α] (v : List α) :
    (((bubble_sort ltb v).1).Sorted (· ≤ ·) ∧ (bubble_sort ltb v).1 ~ v) ∧
    (((shuttle_sort ltb v).1).Sorted (· ≤ ·) ∧ (shuttle_sort ltb v).1 ~ v) ∧
    ((quick_sort gtb v).Sorted (· ≤ ·) ∧ quick_sort gtb v ~ v) :=
  ⟨⟨bubble_sort_sorted v, bubbleGo_perm ltb v.length v⟩,
   ⟨shuttle_sort_sorted v, shuttleGo_perm ltb (v.length - 1) 0 v⟩,
   quick_sort_sorted v, quick_sort_perm gtb v⟩

/-- C2: `bubble_sort` and `shuttle_sort` are stable.  Elements are key-tag
pairs compared only on the key (so two elements with the same key are equal
under the ordering: neither is less than the other); for every key, the
subsequence of elements carrying that key — tags and all — is exactly the same
before and after sorting, i.e. the relative input order of equal elements is
preserved. -/
theorem C2_bubble_shuttle_stable [LinearOrder κ] [DecidableEq κ]
    (v : List (κ × τ)) (k : κ) :
    ((bubble_sort ltkey v).1).filter (fun e => decide (e.1 = k)) =
      v.filter (fun e => decide (e.1 = k)) ∧
    ((shuttle_sort ltkey v).1).filter (fun e => decide (e.1 = k)) =
      v.filter (fun e => decide (e.1 = k)) := by
  have hp : ∀ a b : κ × τ, ltkey a b = true →
      (decide (a.1 = k) : Bool) = true → (decide (b.1 = k) : Bool) = true → False := by
    intro a b hab ha hb
    have h1 : a.1 < b.1 := by simpa [ltkey] using hab
    have h2 : a.1 = k := of_decide_eq_true ha
    have h3 : b.1 = k := of_decide_eq_true hb
    rw [h2, h3] at h1
    exact lt_irrefl k h1
  exact ⟨bubbleGo_filter ltkey _ hp v.length v,
    shuttleGo_filter ltkey _ hp (v.length - 1) 0 v⟩

/-- C3: When the partition loop of `quick_sort` completes on a range of at
least two elements, the pivot (the range's last element) sits at its final
sorted position: the elements left of it are not greater than it and the
elements right of it are greater, and the whole range is the left part, the
pivot, then the right part.  The routine then recurses exactly on the
sub-range strictly right of the pivot (up to the original end) and on the
sub-range from the start to the slot immediately left of the pivot's final
location; the final length conjunct pins the pivot's output index to the left
part's size. -/
theorem C3_quick_sort_partition [LinearOrder α] (x y : α) (rest : List α) :
    (∀ a ∈ (qpart gtb ((x :: y :: rest).getLastD x) ((x :: y :: rest).dropLast)).1,
        ¬ ((x :: y :: rest).getLastD x) < a) ∧
    (∀ a ∈ (qpart gtb ((x :: y :: rest).getLastD x) ((x :: y :: rest).dropLast)).2,
        ((x :: y :: rest).getLastD x) < a) ∧
    ((qpart gtb ((x :: y :: rest).getLastD x) ((x :: y :: rest).dropLast)).1 ++
        ((x :: y :: rest).getLastD x) ::
        (qpart gtb ((x :: y :: rest).getLastD x) ((x :: y :: rest).dropLast)).2 ~
      x :: y :: rest) ∧
    (quick_sort gtb (x :: y :: rest) =
      quick_sort gtb ((qpart gtb ((x :: y :: rest).getLastD x) ((x :: y :: rest).dropLast)).1) ++
        ((x :: y :: rest).getLastD x) ::
        quick_sort gtb ((qpart gtb ((x :: y :: rest).getLastD x) ((x :: y :: rest).dropLast)).2)) ∧
    (quick_sort gtb ((qpart gtb ((x :: y :: rest).getLastD x) ((x :: y :: rest).dropLast)).1)).length =
      ((qpart gtb ((x :: y :: rest).getLastD x) ((x :: y :: rest).dropLast)).1).length := by
  refine ⟨?_, ?_, ?_, quick_sort_cons₂ gtb x y rest, (quick_sort_perm gtb _).length_eq⟩
  · intro a ha
    have := qpart_left gtb ((x :: y :: rest).getLastD x) ((x :: y :: rest).dropLast) a ha
    simpa [gtb] using this
  · intro a ha
    have := qpart_right gtb ((x :: y :: rest).getLastD x) ((x :: y :: rest).dropLast) a ha
    simpa [gtb] using this
  · refine (List.perm_middle).trans ?_
    refine ((qpart_perm gtb _ _).cons _).trans ?_
    refine (List.perm_append_singleton _ _).symm.trans ?_
    rw [dropLast_append_getLastD]

/-- C4: For every input sequence of length at least one, `shuttle_sort`
executes exactly `N - 1` outer passes.  The embedding mirrors the loop
`while (pass <= n - 1)`, whose iteration count is fixed by the initial length
alone — the statement holds for every input, already sorted or not, because
the loop has no early-exit convergence check. -/
theorem C4_shuttle_pass_count (lt : α → α → Bool) (v : List α) (_h : 1 ≤ v.length) :
    (shuttle_sort lt v).2.2.2 = v.length - 1 :=
  shuttleGo_passes lt (v.length - 1) 0 v

/-- C4 witness: a length-3 input runs exactly 2 passes. -/
theorem C4_shuttle_pass_count_witness :
    1 ≤ ([5, 3, 1] : List Nat).length ∧ (shuttle_sort ltb ([5, 3, 1] : List Nat)).2.2.2 = 3 - 1 :=
  ⟨by decide, C4_shuttle_pass_count ltb [5, 3, 1] (by decide)⟩

/-- C5: `bubble_sort` returns as soon as a pass performs zero swaps (the outer
loop's only exit), and on a strictly decreasing input its accumulated
`swaps_total` is `n * (n - 1) / 2`. -/
theorem C5_bubble_swap_count [LinearOrder α] (v : List α) (hv : Chain' (· > ·) v)
    (m : Nat) (w : List α) (hw : (bubblePassOn ltb m w).2.2 = 0) :
    (bubble_sort ltb v).2.2 = v.length * (v.length - 1) / 2 ∧
    bubbleGo ltb m w = bubblePassOn ltb m w := by
  constructor
  · exact bubbleGo_desc_swaps v.length v (le_refl _) (by rw [List.take_length]; exact hv)
  · exact bubbleGo_stop ltb m w hw

/-- C5 witness: the reverse-sorted input `[3, 2, 1]` needs `3` swaps, and a
zero-swap pass on `[7]` ends the sort. -/
theorem C5_bubble_swap_count_witness :
    Chain' (· > ·) ([3, 2, 1] : List Nat) ∧
    (bubblePassOn ltb 1 ([7] : List Nat)).2.2 = 0 ∧
    ((bubble_sort ltb ([3, 2, 1] : List Nat)).2.2 = 3 * (3 - 1) / 2 ∧
      bubbleGo ltb 1 ([7] : List Nat) = bubblePassOn ltb 1 ([7] : List Nat)) :=
  ⟨by simp [List.chain'_cons], by decide,
    C5_bubble_swap_count [3, 2, 1] (by simp [List.chain'_cons]) 1 [7] (by decide)⟩

/-- C6: on the empty sequence and on every single-element sequence all three
routines return the sequence unchanged (for any comparison operators the
element type supplies), and on the empty sequence the accumulated comparison
and swap totals are both zero. -/
theorem C6_trivial_inputs (lt gt : α → α → Bool) :
    bubble_sort lt ([] : List α) = ([], 0, 0) ∧
    shuttle_sort lt ([] : List α) = ([], 0, 0, 0) ∧
    quick_sort gt ([] : List α) = [] ∧
    (∀ a : α, bubble_sort lt [a] = ([a], 0, 0) ∧
      shuttle_sort lt [a] = ([a], 0, 0, 0) ∧ quick_sort gt [a] = [a]) := by
  refine ⟨rfl, rfl, by simp [quick_sort], fun a => ⟨?_, rfl, by simp [quick_sort]⟩⟩
  show bubbleGo lt 1 [a] = ([a], 0, 0)
  rw [bubbleGo]
  simp [bubblePassOn, bpass, bpassGo]

/-- Comparison operators of an element type on which no value is
`operator<`-below any other, while `operator>` orders `true` above `false` —
a C++ class may overload the two operators independently in exactly this
way. -/
def cmpA : CmpOps Bool := ⟨fun _ _ => false, fun a b => a && !b⟩

/-- Comparison operators with the same (empty) `operator<` as `cmpA` but an
empty `operator>` as well. -/
def cmpB : CmpOps Bool := ⟨fun _ _ => false, fun _ _ => false⟩

/-- C7 counterexample: the claim that each algorithm decides the output order
using only the element type's strict less-than comparison is false for
`quick_sort`: two element types whose `operator<` agree everywhere get
different `quick_sort` outputs, because `quick_sort` reads `operator>`
(`*e1 > *pivot_it`), an operator a C++ type overloads independently of
`operator<`. -/
theorem C7_quick_sort_not_lt_determined :
    cmpA.lt = cmpB.lt ∧ quick_sortC cmpA [true, false] ≠ quick_sortC cmpB [true, false] := by
  constructor
  · rfl
  · have hA : quick_sortC cmpA [true, false] = [false, true] := by
      show quick_sort cmpA.gt [true, false] = [false, true]
      rw [quick_sort_cons₂]
      simp [qpart, rotateLast, cmpA, quick_sort]
    have hB : quick_sortC cmpB [true, false] = [true, false] := by
      show quick_sort cmpB.gt [true, false] = [true, false]
      rw [quick_sort_cons₂]
      simp [qpart, cmpB, quick_sort]
    rw [hA, hB]
    simp

/-- C7 (amended): `bubble_sort` and `shuttle_sort` decide the output order
using only the element type's strict less-than comparison (`operator<`);
`quick_sort` instead decides it using only the strict greater-than comparison
(`operator>`), so the minimal capability set of less-than, parse and format
suffices for the first two algorithms, while `quick_sort` additionally
requires `operator>`. -/
theorem C7_comparison_dependence (c c' : CmpOps α) (v : List α) :
    (c.lt = c'.lt →
      bubble_sortC c v = bubble_sortC c' v ∧ shuttle_sortC c v = shuttle_sortC c' v) ∧
    (c.gt = c'.gt → quick_sortC c v = quick_sortC c' v) := by
  constructor
  · intro h
    constructor
    · show bubble_sort c.lt v = bubble_sort c'.lt v
      rw [h]
    · show shuttle_sort c.lt v = shuttle_sort c'.lt v
      rw [h]
  · intro h
    show quick_sort c.gt v = quick_sort c'.gt v
    rw [h]

/-- C7 witness: applying the dependence theorem at `cmpA`/`cmpB`, whose
less-than operators agree. -/
theorem C7_comparison_dependence_witness :
    (bubble_sortC cmpA [true, false] = bubble_sortC cmpB [true, false] ∧
      shuttle_sortC cmpA [true, false] = shuttle_sortC cmpB [true, false]) ∧
    quick_sortC cmpA [true, false] = quick_sortC cmpA [true, false] :=
  ⟨(C7_comparison_dependence cmpA cmpB [true, false]).1 rfl,
   (C7_comparison_dependence cmpA cmpA [true, false]).2 rfl⟩

/-- C9: whenever a file cannot be opened for reading or writing, the enclosing
operation prints the diagnostic to standard output and returns early having
done nothing else: `dump_vector` writes no file content,
`test_sorting_algorithms` reads no values, sorts nothing and writes none of
its three output files, and `test_class_sort` produces no sorted vector.  The
embedding's functions return normally in all cases, mirroring the absence of
exceptions, process termination or error propagation. -/
theorem C9_open_failure_early_return [LinearOrder β] (fmt : α → String) (v : List α)
    (fmt2 : β → String) (tokens : List β) (o1 o2 o3 : Bool) (cats : List Cat) :
    dump_vector fmt v false = ([openErrorMsg], none) ∧
    test_sorting_algorithms fmt2 tokens false o1 o2 o3 = ([openErrorMsg], none, none, none) ∧
    test_class_sort cats false = ([openErrorMsg], []) :=
  ⟨rfl, rfl, rfl⟩

/-- C10: the termination measures of `quick_sort`.  Each iteration of the
partition loop shrinks the unscanned middle — the distance from the scanning
position to the pivot — by one, whether the element is relocated
(`rotateLast rest`) or passed over (`rest`); and both recursive calls receive
strictly smaller ranges than the enclosing range of at least two elements. -/
theorem C10_quick_sort_termination (gt : α → α → Bool) (x y : α) (rest : List α) :
    ((rotateLast rest).length < (x :: rest).length ∧ rest.length < (x :: rest).length) ∧
    ((qpart gt ((x :: y :: rest).getLastD x) ((x :: y :: rest).dropLast)).1.length <
        (x :: y :: rest).length ∧
      (qpart gt ((x :: y :: rest).getLastD x) ((x :: y :: rest).dropLast)).2.length <
        (x :: y :: rest).length) := by
  constructor
  · rw [rotateLast_length]
    constructor <;> simp
  · have h := qpart_length gt ((x :: y :: rest).getLastD x) ((x :: y :: rest).dropLast)
    simp only [List.length_dropLast, List.length_cons] at h ⊢
    omega
